import Mathlib

/-!
Verification of the State-of-Quantum repository: shallow embedding of the
five algorithm classes (BernsteinVazirani, DeutschJozsa,
QuantumFourierTransform, QuantumPhaseEstimation, SimonProblem).

Circuits are modelled as lists of gates, in the order the Python code
appends them to the qiskit circuit.  Phase angles are rational multiples
of pi: `Gate.cp a c t` stands for the controlled-phase gate of angle
`a * pi` with control `c` and target `t` (the source computes the float
`np.pi / 2**e` or `2 * math.pi * theta`; we keep the exact coefficient).
Calls to numpy's random number generator are modelled as explicit
parameters holding the drawn values.
-/

/-- One gate (or instruction) appended to a qiskit circuit. -/
inductive Gate where
  | h (q : Nat)
  | x (q : Nat)
  | z (q : Nat)
  | id (q : Nat)
  | cx (control target : Nat)
  | cp (angle : ℚ) (control target : Nat)
  | swap (q1 q2 : Nat)
  | barrier
  | measure (q c : Nat)
deriving DecidableEq, Repr

/-! ## Deutsch-Jozsa (src/Deutsch-Jozsa/DJ_qiskit.py) -/

/-- The attributes stored by `DeutschJozsa.__init__`. -/
structure DeutschJozsa where
  type : String
  num_bits : Int
deriving DecidableEq, Repr

/-- `DeutschJozsa.__init__`: asserts `type == 'constant' or type == 'balanced'`
(`none` models the `AssertionError`), then stores `type` and `num_bits`. -/
def DJ_init (type : String) (num_bits : Int) : Option DeutschJozsa :=
  if type = "constant" ∨ type = "balanced" then some ⟨type, num_bits⟩ else none

/-- Python `format(b, '0' + str(width) + 'b')`: binary digits of `b`,
zero-padded on the left to `width`. -/
def binaryString (width : Nat) (b : Nat) : List Char :=
  let ds := Nat.toDigits 2 b
  List.replicate (width - ds.length) '0' ++ ds

/-- `DeutschJozsa.oracle`.  The two draws from numpy's global RNG are
explicit arguments: `output` models `np.random.randint(2)` and
`b` models `np.random.randint(1, 2**self.num_bits)`. -/
def DJ_oracle (dj : DeutschJozsa) (output : Nat) (b : Nat) : List Gate :=
  let nb := dj.num_bits.toNat
  (if dj.type = "constant" then
    (if output = 1 then [Gate.x nb] else [])
  else [])
  ++
  (if dj.type = "balanced" then
    let binary_string := binaryString nb b
    ((List.range binary_string.length).filter
        (fun q => binary_string.getD q ' ' = '1')).map Gate.x
    ++ (List.range nb).map (fun q => Gate.cx q nb)
    ++ ((List.range binary_string.length).filter
        (fun q => binary_string.getD q ' ' = '1')).map Gate.x
  else [])

/-- `DeutschJozsa.algorithm` (given the oracle as an opaque sub-list it appends). -/
def DJ_algorithm (dj : DeutschJozsa) (oracle : List Gate) : List Gate :=
  let nb := dj.num_bits.toNat
  (List.range nb).map Gate.h
  ++ [Gate.x nb, Gate.h nb]
  ++ oracle
  ++ (List.range nb).map Gate.h
  ++ (List.range nb).map (fun i => Gate.measure i i)

/-! ## Bernstein-Vazirani (src/Bernstein-Vazirani/BV_qiskit.py) -/

/-- The attributes stored by `BernsteinVazirani.__init__` (`self.n`,
`self.bitstring`).  The Python string is modelled as a list of characters. -/
structure BernsteinVazirani where
  n : Nat
  bitstring : List Char
deriving DecidableEq, Repr

/-- `BernsteinVazirani.algorithm`: output qubit to state minus, Hadamards,
barrier, the inner-product oracle over the reversed bitstring
(`s = self.bitstring[::-1]`), barrier, Hadamards, measurements. -/
def BV_algorithm (bv : BernsteinVazirani) : List Gate :=
  let n := bv.n
  let s := bv.bitstring.reverse
  [Gate.h n, Gate.z n]
  ++ (List.range n).map Gate.h
  ++ [Gate.barrier]
  ++ (List.range n).map
      (fun qubit => if s.getD qubit ' ' = '0' then Gate.id qubit else Gate.cx qubit n)
  ++ [Gate.barrier]
  ++ (List.range n).map Gate.h
  ++ (List.range n).map (fun qubit => Gate.measure qubit qubit)

/-! ## Quantum Fourier Transform (src/Quantum-Fourier-Transform/QFT_qiskit.py)

`QuantumFourierTransform.__init__` stores `self.n` and a circuit object
`self.circuit`; the qiskit gate calls mutate that circuit in place, so the
instance is modelled as a state record that `algorithm` transforms. -/

structure QuantumFourierTransform where
  n : Nat
  circuit : List Gate
deriving DecidableEq, Repr

/-- `QuantumFourierTransform.__init__`: stores `num_qubits` and a fresh
(empty) circuit on `self.n` qubits. -/
def QFT_init (num_qubits : Nat) : QuantumFourierTransform :=
  ⟨num_qubits, []⟩

/-- `QuantumFourierTransform.rotations`: if `n = 0` return the circuit;
otherwise decrement `n`, apply a Hadamard on qubit `n`, controlled-phase
gates of angle `pi / 2^(n-qubit)` for each `qubit < n`, and recurse. -/
def rotations (circuit : List Gate) : Nat → List Gate
  | 0 => circuit
  | n + 1 =>
    rotations
      (circuit ++ [Gate.h n]
        ++ (List.range n).map (fun qubit => Gate.cp (1 / 2 ^ (n - qubit)) qubit n))
      n

/-- `QuantumFourierTransform.swap_registers`: swap qubit `qubit` with qubit
`n - qubit - 1` for each `qubit < n // 2`. -/
def swap_registers (circuit : List Gate) (n : Nat) : List Gate :=
  circuit ++ (List.range (n / 2)).map (fun qubit => Gate.swap qubit (n - qubit - 1))

/-- `QuantumFourierTransform.algorithm`: applies `rotations` then
`swap_registers` to `self.circuit` (mutating it in place) and returns the
resulting circuit together with the updated instance. -/
def QFT_algorithm (qft : QuantumFourierTransform) :
    QuantumFourierTransform × List Gate :=
  let circuit := swap_registers (rotations qft.circuit qft.n) qft.n
  (⟨qft.n, circuit⟩, circuit)

/-- The gate sequence the spec describes for the rotation phase: for
`k = n-1` down to `0`, a Hadamard on qubit `k` followed by controlled-phase
gates of angle `pi / 2^(k-q)` with control `q` and target `k` for each `q < k`. -/
def qftSpecRotations : Nat → List Gate
  | 0 => []
  | k + 1 =>
    ([Gate.h k] ++ (List.range k).map (fun q => Gate.cp (1 / 2 ^ (k - q)) q k))
      ++ qftSpecRotations k

/-- The full gate sequence the spec describes for the textbook QFT on `n`
qubits: the rotations, then swaps of qubit `q` with qubit `n-1-q` for `q < n//2`. -/
def qftSpecGates (n : Nat) : List Gate :=
  qftSpecRotations n
    ++ (List.range (n / 2)).map (fun q => Gate.swap q (n - q - 1))

/-! ## Quantum Phase Estimation (src/Quantum-Phase-Estimation/QPE_qiskit.py) -/

/-- The attributes stored by `QuantumPhaseEstimation.__init__`.  `angle` is
the coefficient of pi: the source stores the float `2 * math.pi * angle`. -/
structure QuantumPhaseEstimation where
  n_counting_qubits : Nat
  angle : ℚ
deriving DecidableEq, Repr

/-- `QuantumPhaseEstimation.__init__`: stores `n_counting_qubits` and the
rotation angle `2 * pi * angle` (here the pi-coefficient `2 * angle`). -/
def QPE_init (n_counting_qubits : Nat) (angle : ℚ) : QuantumPhaseEstimation :=
  ⟨n_counting_qubits, 2 * angle⟩

/-- `QuantumPhaseEstimation.qft_inverse`: swaps, then for each `j < n` the
negative-angle controlled-phase gates followed by a Hadamard on `j`. -/
def qft_inverse (circuit : List Gate) (n : Nat) : List Gate :=
  (circuit ++ (List.range (n / 2)).map (fun qubit => Gate.swap qubit (n - qubit - 1)))
  ++ ((List.range n).map (fun j =>
        (List.range j).map (fun m => Gate.cp (-(1 / 2 ^ (j - m))) m j)
          ++ [Gate.h j])).flatten

/-- The controlled-U loop of `QuantumPhaseEstimation.algorithm`: for each
counting qubit, `repetitions` controlled-phase gates of the stored angle
targeting the eigenstate qubit `n`, with `repetitions *= 2` after each
counting qubit.  `remaining` counts the counting qubits still to process. -/
def cuLoop (angle : ℚ) (n : Nat) : Nat → Nat → Nat → List Gate
  | _, 0, _ => []
  | counting_qubit, r + 1, repetitions =>
    List.replicate repetitions (Gate.cp angle counting_qubit n)
      ++ cuLoop angle n (counting_qubit + 1) r (repetitions * 2)

/-- `QuantumPhaseEstimation.algorithm`: Hadamards on the counting qubits,
optional X on the eigenstate qubit, the controlled-U loop, barrier, inverse
QFT appended onto the circuit, barrier, measurements. -/
def QPE_algorithm (qpe : QuantumPhaseEstimation) (eigenstate_x : Bool)
    (repetitions : Nat) : List Gate :=
  let n := qpe.n_counting_qubits
  qft_inverse
    (((List.range n).map Gate.h)
      ++ (if eigenstate_x then [Gate.x n] else [])
      ++ cuLoop qpe.angle n 0 n repetitions
      ++ [Gate.barrier]) n
  ++ [Gate.barrier]
  ++ (List.range n).map (fun qubit => Gate.measure qubit qubit)

/-- Recogniser for a controlled-phase gate of angle `angle` with control `i`
and target `n`. -/
def isCUGate (angle : ℚ) (i n : Nat) : Gate → Bool
  | Gate.cp a c t => decide (c = i) && decide (t = n) && decide (a = angle)
  | _ => false

/-! ## Simon's problem (src/Simons-problem/Simon_qiskit.py) -/

/-- The attributes stored by `SimonProblem.__init__`. -/
structure SimonProblem where
  b : List Char
  n : Nat
deriving DecidableEq, Repr

/-- `SimonProblem.__init__`: stores the bitstring and its length. -/
def Simon_init (bitstring : List Char) : SimonProblem :=
  ⟨bitstring, bitstring.length⟩

/-- The parallel assignment
`initial_position[i], initial_position[k] = initial_position[k], initial_position[i]`. -/
def listSwap (l : List Nat) (i k : Nat) : List Nat :=
  (l.set i (l.getD k 0)).set k (l.getD i 0)

/-- The while-loop in `SimonProblem.oracle` that realises the random
permutation by swap gates, with an explicit fuel (`none` models
non-termination within the fuel).  Mirrors
`while i < n: if initial_position[i] != permutation[i]: k = ...; swap; mark
else: i += 1`, returning the emitted gates, `initial_position` and `i`. -/
def simonSwapLoop (n : Nat) (perm : List Nat) :
    Nat → List Nat → Nat → List Gate → Option (List Gate × List Nat × Nat)
  | 0, _, _, _ => none
  | fuel + 1, initial_position, i, gates =>
    if i < n then
      if initial_position.getD i 0 ≠ perm.getD i 0 then
        let k := perm.indexOf (initial_position.getD i 0)
        simonSwapLoop n perm fuel (listSwap initial_position i k) i
          (gates ++ [Gate.swap (n + i) (n + k)])
      else
        simonSwapLoop n perm fuel initial_position (i + 1) gates
    else some (gates, initial_position, i)

/-- Python `self.b.rfind('1')`: index of the last occurrence, or -1. -/
def rfind (l : List Char) (c : Char) : Int :=
  l.enum.foldl (fun acc p => if p.2 = c then (p.1 : Int) else acc) (-1)

/-- `SimonProblem.oracle`.  The draws from numpy's global RNG are explicit
arguments: `perm` models `np.random.permutation(self.n)` and `flips.getD i`
models `np.random.random() > 0.5` for qubit `i`.  The while-loop runs with
fuel `2*n + 1`, shown sufficient for every permutation. -/
def Simon_oracle (sp : SimonProblem) (perm : List Nat) (flips : List Bool) : List Gate :=
  let n := sp.n
  let j := rfind sp.b '1'
  ((List.range n).map (fun i => Gate.cx i (n + i)))
  ++ ((sp.b.enum.filter (fun p => decide (p.2 = '1' ∧ j ≠ -1))).map
      (fun p => Gate.cx j.toNat (n + p.1)))
  ++ (match simonSwapLoop n perm (2 * n + 1) (List.range n) 0 [] with
      | some (gs, _, _) => gs
      | none => [])
  ++ (((List.range n).filter (fun i => flips.getD i false)).map (fun i => Gate.x (n + i)))

/-- Python `int(c)` on a digit character. -/
def charToInt (c : Char) : Nat := c.toNat - 48

/-- `SimonProblem.bdotz`: `accum += int(b[i]) * int(z[i])` over
`i in range(len(b))`, then `accum % 2`. -/
def bdotz (b z : List Char) : Nat :=
  ((List.range b.length).foldl
    (fun accum i => accum + charToInt (b.getD i ' ') * charToInt (z.getD i ' ')) 0) % 2

/-! ## Attribute resolution (C1)

Python resolves `self.<attr>` against the attributes `__init__` assigned;
a name that was never assigned raises `AttributeError`.  The tables below
transcribe, from the source, the attributes each class stores and the
data attributes each public method reads from `self` (method lookups such
as `self.rotations` or `self.bdotz` resolve on the class and are omitted). -/

/-- The instance attributes each class's `__init__` assigns on `self`. -/
def instanceAttributes : String → List String
  | "DeutschJozsa" => ["type", "num_bits"]
  | "BernsteinVazirani" => ["n", "bitstring"]
  | "QuantumFourierTransform" => ["n", "circuit"]
  | "QuantumPhaseEstimation" => ["n_counting_qubits", "angle"]
  | "SimonProblem" => ["b", "n"]
  | _ => []

/-- For each public method of the five classes, the data attributes it
reads from `self`, transcribed from the `self.<attr>` occurrences in the
source files. -/
def selfAttributeReads : List (String × String × List String) :=
  [ ("DeutschJozsa", "oracle", ["type", "num_bits"]),
    ("DeutschJozsa", "algorithm", ["num_bits"]),
    ("DeutschJozsa", "simulation", []),
    ("DeutschJozsa", "run_quantum_hardware", ["num_bits"]),
    ("BernsteinVazirani", "algorithm", ["n", "bitstring"]),
    ("BernsteinVazirani", "simulation", []),
    ("BernsteinVazirani", "run_quantum_hardware", ["num_bits"]),
    ("QuantumFourierTransform", "rotations", []),
    ("QuantumFourierTransform", "swap_registers", []),
    ("QuantumFourierTransform", "algorithm", ["circuit", "n"]),
    ("QuantumFourierTransform", "simulation", []),
    ("QuantumFourierTransform", "run_quantum_hardware", ["n"]),
    ("QuantumPhaseEstimation", "qft_inverse", []),
    ("QuantumPhaseEstimation", "algorithm", ["n_counting_qubits", "angle"]),
    ("QuantumPhaseEstimation", "simulation", []),
    ("QuantumPhaseEstimation", "run_quantum_hardware", ["n"]),
    ("SimonProblem", "oracle", ["n", "b"]),
    ("SimonProblem", "algorithm", ["n"]),
    ("SimonProblem", "bdotz", []),
    ("SimonProblem", "simulation", ["b"]),
    ("SimonProblem", "run_quantum_hardware", ["n", "b"]) ]

/-- Whether every `self.<attr>` lookup of a method resolves on the instance. -/
def methodAttributesResolve (entry : String × String × List String) : Bool :=
  entry.2.2.all (fun a => (instanceAttributes entry.1).contains a)

/-! ## Theorems -/

-- scratch tests
example : DJ_init "constant" 3 = some ⟨"constant", 3⟩ := by decide

example : DJ_init "foo" 3 = none := by decide

example : DJ_oracle ⟨"balanced", 2⟩ 0 2 = [Gate.x 0, Gate.cx 0 2, Gate.cx 1 2, Gate.x 0] := by decide

/-- C2: `DeutschJozsa.__init__` fails its assertion exactly when `type` is
neither `"constant"` nor `"balanced"`; otherwise it succeeds and stores
`type` and `num_bits` as passed. -/
theorem DJ_init_assertion_iff (type : String) (num_bits : Int) :
    (DJ_init type num_bits = none ↔ ¬ (type = "constant" ∨ type = "balanced"))
    ∧ (DJ_init type num_bits = some ⟨type, num_bits⟩
        ↔ (type = "constant" ∨ type = "balanced")) := by
  unfold DJ_init
  by_cases h : type = "constant" ∨ type = "balanced" <;> simp [h]

/-- C5: for a bitstring `s` of length `n`, the oracle layer of
`BernsteinVazirani.algorithm` (the segment between the two barriers) puts,
for each input qubit `i < n`, a CNOT with control `i` and target `n`
exactly when `s[n-1-i] = '1'`, and an identity gate on qubit `i` otherwise. -/
theorem BV_algorithm_oracle_layer (n : Nat) (s : List Char)
    (hlen : s.length = n) (hbits : ∀ c ∈ s, c = '0' ∨ c = '1') :
    BV_algorithm ⟨n, s⟩ =
      [Gate.h n, Gate.z n]
      ++ (List.range n).map Gate.h
      ++ [Gate.barrier]
      ++ (List.range n).map
          (fun i => if s.getD (n - 1 - i) ' ' = '1' then Gate.cx i n else Gate.id i)
      ++ [Gate.barrier]
      ++ (List.range n).map Gate.h
      ++ (List.range n).map (fun qubit => Gate.measure qubit qubit) := by
  unfold BV_algorithm
  simp only [List.append_cancel_left_eq, List.append_cancel_right_eq]
  apply List.map_congr_left
  intro i hi
  rw [List.mem_range] at hi
  have hrev : s.reverse.getD i ' ' = s.getD (n - 1 - i) ' ' := by
    have hi' : i < s.reverse.length := by simpa [hlen] using hi
    have hi'' : n - 1 - i < s.length := by omega
    rw [List.getD_eq_getElem _ _ hi', List.getD_eq_getElem _ _ hi'',
      List.getElem_reverse]
    simp [hlen]
  rw [hrev]
  rcases hbits (s.getD (n - 1 - i) ' ')
      (List.getD_eq_getElem s ' ' (show n - 1 - i < s.length by omega) ▸
        List.getElem_mem _) with h0 | h1
  · rw [h0]; simp
  · rw [h1]; simp

/-- Witness for C5 at the concrete input n = 3, s = "110". -/
theorem BV_algorithm_oracle_layer_witness :
    (['1', '1', '0'] : List Char).length = 3
    ∧ BV_algorithm ⟨3, ['1', '1', '0']⟩ =
      [Gate.h 3, Gate.z 3]
      ++ (List.range 3).map Gate.h
      ++ [Gate.barrier]
      ++ (List.range 3).map
          (fun i => if (['1', '1', '0'] : List Char).getD (3 - 1 - i) ' ' = '1'
            then Gate.cx i 3 else Gate.id i)
      ++ [Gate.barrier]
      ++ (List.range 3).map Gate.h
      ++ (List.range 3).map (fun qubit => Gate.measure qubit qubit) :=
  ⟨by decide,
    BV_algorithm_oracle_layer 3 ['1', '1', '0'] (by decide) (by decide)⟩

/-- `rotations` only appends gates: its result is the input circuit followed
by the spec's rotation sequence. -/
theorem rotations_eq_append (circuit : List Gate) (n : Nat) :
    rotations circuit n = circuit ++ qftSpecRotations n := by
  induction n generalizing circuit with
  | zero => simp [rotations, qftSpecRotations]
  | succ n ih =>
    rw [rotations, ih, qftSpecRotations]
    simp

/-- C6: on a freshly constructed instance, `QuantumFourierTransform.algorithm`
emits exactly the textbook QFT gate sequence: for `k = n-1` down to `0` a
Hadamard on qubit `k` followed by controlled-phase gates of angle
`pi / 2^(k-q)` with control `q` and target `k` for each `q < k`, and then
swap gates exchanging qubit `q` with qubit `n-1-q` for each `q < n//2`. -/
theorem QFT_algorithm_eq_spec (n : Nat) :
    (QFT_algorithm (QFT_init n)).2 = qftSpecGates n := by
  rw [QFT_algorithm, QFT_init, qftSpecGates]
  rw [show (⟨n, []⟩ : QuantumFourierTransform).circuit = [] from rfl,
    show (⟨n, []⟩ : QuantumFourierTransform).n = n from rfl]
  rw [rotations_eq_append, swap_registers]
  simp

/-- C9: `QuantumFourierTransform.rotations` terminates: it is total,
recursing on `n` decreased by one each call, with base case `n = 0`
returning the given circuit with no gates added (first conjunct); each
recursive step hands the recursive call `n - 1` (second conjunct). -/
theorem rotations_terminates :
    (∀ circuit : List Gate, rotations circuit 0 = circuit)
    ∧ (∀ (circuit : List Gate) (n : Nat),
        rotations circuit (n + 1) =
          rotations
            (circuit ++ [Gate.h n]
              ++ (List.range n).map
                  (fun qubit => Gate.cp (1 / 2 ^ (n - qubit)) qubit n))
            n) :=
  ⟨fun _ => rfl, fun _ _ => rfl⟩

/-- Counterexample to C3: on a `QuantumFourierTransform` instance with one
qubit, calling `algorithm()` a second time does not return the same circuit
as the first call — the gate sequence is emitted again into the stored,
mutated `self.circuit` (first call: one Hadamard; second call: two). -/
theorem QFT_algorithm_not_idempotent :
    (QFT_algorithm ((QFT_algorithm (QFT_init 1)).1)).2
      ≠ (QFT_algorithm (QFT_init 1)).2 := by
  decide

/-- C3 (amended): `QuantumFourierTransform.algorithm` mutates the circuit
stored in the instance at construction: each call appends the full QFT gate
sequence to `self.circuit` and returns it, so the second call on the same
instance returns the first call's gate sequence followed by itself rather
than the same sequence. -/
theorem QFT_algorithm_second_call (n : Nat) :
    (QFT_algorithm ((QFT_algorithm (QFT_init n)).1)).2
      = (QFT_algorithm (QFT_init n)).2 ++ (QFT_algorithm (QFT_init n)).2 := by
  simp only [QFT_algorithm, QFT_init]
  simp only [swap_registers, rotations_eq_append]
  simp

theorem cuLoop_countP (angle : ℚ) (n i : Nat) :
    ∀ (remaining counting_qubit repetitions : Nat),
      (cuLoop angle n counting_qubit remaining repetitions).countP (isCUGate angle i n)
        = if counting_qubit ≤ i ∧ i < counting_qubit + remaining
            then repetitions * 2 ^ (i - counting_qubit) else 0 := by
  intro remaining
  induction remaining with
  | zero =>
    intro cq reps
    have hc : ¬ (cq ≤ i ∧ i < cq + 0) := by omega
    rw [cuLoop, if_neg hc]
    simp
  | succ r ih =>
    intro cq reps
    rw [cuLoop, List.countP_append, ih, List.countP_replicate]
    have hpred : isCUGate angle i n (Gate.cp angle cq n) = decide (cq = i) := by
      simp [isCUGate]
    rw [hpred]
    by_cases hcq : cq = i
    · have h1 : decide (cq = i) = true := by simp [hcq]
      have h2 : ¬ (cq + 1 ≤ i ∧ i < cq + 1 + r) := by omega
      have h3 : cq ≤ i ∧ i < cq + (r + 1) := by omega
      rw [if_pos h1, if_neg h2, if_pos h3]
      subst hcq
      simp
    · have h1 : ¬ (decide (cq = i) = true) := by simpa using hcq
      rw [if_neg h1]
      by_cases hrange : cq + 1 ≤ i ∧ i < cq + 1 + r
      · have h3 : cq ≤ i ∧ i < cq + (r + 1) := by omega
        rw [if_pos hrange, if_pos h3]
        have h4 : i - cq = (i - (cq + 1)) + 1 := by omega
        rw [h4, pow_succ]
        ring
      · have h3 : ¬ (cq ≤ i ∧ i < cq + (r + 1)) := by omega
        rw [if_neg hrange, if_neg h3]

/-- C7: `QuantumPhaseEstimation` stores the rotation angle `2*pi*theta`
(as pi-coefficient `2*theta`), and `algorithm()` with the default
`repetitions = 1` applies the controlled-phase gate of that angle with
control counting-qubit `i` and target the eigenstate qubit `n` exactly
`2^i` times for each counting qubit `i < n`: the repetition count doubles
after each counting qubit. -/
theorem QPE_angle_and_repetition_doubling (n : Nat) (theta : ℚ)
    (eigenstate_x : Bool) (i : Nat) (hi : i < n) :
    (QPE_init n theta).angle = 2 * theta
    ∧ (QPE_algorithm (QPE_init n theta) eigenstate_x 1).countP
        (isCUGate ((QPE_init n theta).angle) i n) = 2 ^ i := by
  refine ⟨rfl, ?_⟩
  have hH : ∀ l : List Nat,
      (l.map Gate.h).countP (isCUGate (2 * theta) i n) = 0 := by
    intro l
    apply List.countP_eq_zero.mpr
    intro g hg
    rcases List.mem_map.mp hg with ⟨q, _, rfl⟩
    simp [isCUGate]
  have hM : ∀ l : List Nat,
      (l.map (fun q => Gate.measure q q)).countP (isCUGate (2 * theta) i n) = 0 := by
    intro l
    apply List.countP_eq_zero.mpr
    intro g hg
    rcases List.mem_map.mp hg with ⟨q, _, rfl⟩
    simp [isCUGate]
  have hS : ∀ l : List Nat,
      (l.map (fun q => Gate.swap q (n - q - 1))).countP (isCUGate (2 * theta) i n) = 0 := by
    intro l
    apply List.countP_eq_zero.mpr
    intro g hg
    rcases List.mem_map.mp hg with ⟨q, _, rfl⟩
    simp [isCUGate]
  have hB : ([Gate.barrier] : List Gate).countP (isCUGate (2 * theta) i n) = 0 := by
    simp [isCUGate]
  have hX : ∀ b : Bool,
      ((if b then [Gate.x n] else []) : List Gate).countP (isCUGate (2 * theta) i n) = 0 := by
    intro b
    cases b <;> simp [isCUGate]
  have hF : (((List.range n).map (fun j =>
      (List.range j).map (fun m => Gate.cp (-(1 / 2 ^ (j - m))) m j)
        ++ [Gate.h j])).flatten).countP (isCUGate (2 * theta) i n) = 0 := by
    apply List.countP_eq_zero.mpr
    intro g hg
    rcases List.mem_flatten.mp hg with ⟨s, hs, hgs⟩
    rcases List.mem_map.mp hs with ⟨j, hj, rfl⟩
    rw [List.mem_range] at hj
    rcases List.mem_append.mp hgs with hcp | hh
    · rcases List.mem_map.mp hcp with ⟨m, _, rfl⟩
      have hjn : decide (j = n) = false := by
        simp only [decide_eq_false_iff_not]
        omega
      simp [isCUGate, hjn]
    · rcases List.mem_singleton.mp hh with rfl
      simp [isCUGate]
  simp only [QPE_algorithm, QPE_init, qft_inverse, List.countP_append,
    hH, hM, hS, hB, hX, hF, cuLoop_countP]
  simp [hi]

/-- Witness for C7 at n = 2 counting qubits, theta = 1/3, counting qubit
i = 1, with the X-gate eigenstate preparation. -/
theorem QPE_angle_and_repetition_doubling_witness :
    (1 : Nat) < 2
    ∧ ((QPE_init 2 (1/3)).angle = 2 * (1/3)
      ∧ (QPE_algorithm (QPE_init 2 (1/3)) true 1).countP
          (isCUGate ((QPE_init 2 (1/3)).angle) 1 2) = 2 ^ 1) :=
  ⟨by decide, QPE_angle_and_repetition_doubling 2 (1/3) true 1 (by decide)⟩

-- scratch tests
example : simonSwapLoop 3 [2, 0, 1] 7 (List.range 3) 0 []
    = some ([Gate.swap 3 4, Gate.swap 3 5], [2, 0, 1], 3) := by decide

example : rfind ['1', '0', '1', '0'] '1' = 2 := by decide

example : bdotz ['1', '1', '0'] ['1', '0', '1'] = 1 := by decide

example : bdotz ['1', '1', '0'] ['1', '1', '1'] = 0 := by decide

example : Simon_oracle (Simon_init ['1', '1']) [0, 1] [true, false]
    = [Gate.cx 0 2, Gate.cx 1 3, Gate.cx 1 2, Gate.cx 1 3, Gate.x 2] := by decide

theorem listSwap_length (l : List Nat) (i k : Nat) :
    (listSwap l i k).length = l.length := by
  simp [listSwap]

theorem listSwap_getD_left (l : List Nat) (i k : Nat)
    (hi : i < l.length) (hik : k ≠ i) :
    (listSwap l i k).getD i 0 = l.getD k 0 := by
  unfold listSwap
  have h1 : i < ((l.set i (l.getD k 0)).set k (l.getD i 0)).length := by simpa using hi
  rw [List.getD_eq_getElem _ _ h1, List.getElem_set_ne hik, List.getElem_set_self]

theorem listSwap_getD_right (l : List Nat) (i k : Nat) (hk : k < l.length) :
    (listSwap l i k).getD k 0 = l.getD i 0 := by
  unfold listSwap
  have h1 : k < ((l.set i (l.getD k 0)).set k (l.getD i 0)).length := by simpa using hk
  rw [List.getD_eq_getElem _ _ h1, List.getElem_set_self]

theorem listSwap_getD_other (l : List Nat) (i k j : Nat)
    (hij : i ≠ j) (hkj : k ≠ j) :
    (listSwap l i k).getD j 0 = l.getD j 0 := by
  unfold listSwap
  by_cases hj : j < l.length
  · have h1 : j < ((l.set i (l.getD k 0)).set k (l.getD i 0)).length := by simpa using hj
    rw [List.getD_eq_getElem _ _ h1, List.getElem_set_ne hkj, List.getElem_set_ne hij,
      List.getD_eq_getElem _ _ hj]
  · have hj' : l.length ≤ j := by omega
    rw [List.getD_eq_default _ _ (by simpa using hj'), List.getD_eq_default _ _ hj']

/-- Invariant argument for the while-loop in `SimonProblem.oracle`: if
`initial_position` is an arrangement of `{0..n-1}` agreeing with `perm`
below `i`, and the fuel exceeds the measure `(n - i) + #mismatches`, the
loop exits with `initial_position = perm` and `i = n`. -/
theorem simonSwapLoop_reaches (n : Nat) (perm : List Nat)
    (hperm : perm.Perm (List.range n)) :
    ∀ (fuel : Nat) (ip : List Nat) (i : Nat) (gates : List Gate),
      ip.length = n →
      (∀ j, j < n → ip.getD j 0 < n) →
      (∀ j1 j2, j1 < n → j2 < n → ip.getD j1 0 = ip.getD j2 0 → j1 = j2) →
      (∀ j, j < i → ip.getD j 0 = perm.getD j 0) →
      i ≤ n →
      (n - i) + ((Finset.range n).filter
        (fun j => ip.getD j 0 ≠ perm.getD j 0)).card < fuel →
      ∃ gs, simonSwapLoop n perm fuel ip i gates = some (gs, perm, n) := by
  have hplen : perm.length = n := by simpa using hperm.length_eq
  intro fuel
  induction fuel with
  | zero =>
    intro ip i gates _ _ _ _ _ hm
    omega
  | succ fuel ih =>
    intro ip i gates hlen hval hinj hpre hile hm
    by_cases hin : i < n
    · rw [simonSwapLoop, if_pos hin]
      by_cases hne : ip.getD i 0 ≠ perm.getD i 0
      · rw [if_pos hne]
        set ipi := ip.getD i 0 with hipi
        set k := perm.indexOf ipi with hkdef
        have hipi_lt : ipi < n := hval i hin
        have hipi_mem : ipi ∈ perm := hperm.mem_iff.mpr (List.mem_range.mpr hipi_lt)
        have hk_lt : k < perm.length := List.indexOf_lt_length.mpr hipi_mem
        have hk_lt_n : k < n := by omega
        have hpk : perm.getD k 0 = ipi := by
          rw [List.getD_eq_getElem _ _ hk_lt]
          exact List.getElem_indexOf hk_lt
        have hki : k ≠ i := by
          intro h
          apply hne
          rw [← hpk, h]
        have hik : i < k := by
          rcases Nat.lt_or_ge i k with h | h
          · exact h
          · exfalso
            rcases Nat.eq_or_lt_of_le h with h' | h'
            · exact hki h'
            · have h1 : ip.getD k 0 = perm.getD k 0 := hpre k h'
              have h2 : ip.getD k 0 = ip.getD i 0 := by rw [h1, hpk]
              have := hinj k i hk_lt_n hin h2
              omega
        have hilen : i < ip.length := by omega
        have hklen : k < ip.length := by omega
        have hlen' : (listSwap ip i k).length = n := by rw [listSwap_length, hlen]
        have hgleft : (listSwap ip i k).getD i 0 = ip.getD k 0 :=
          listSwap_getD_left ip i k hilen hki
        have hgright : (listSwap ip i k).getD k 0 = ipi :=
          listSwap_getD_right ip i k hklen
        have hgother : ∀ j, j ≠ i → j ≠ k →
            (listSwap ip i k).getD j 0 = ip.getD j 0 := by
          intro j hji hjk
          exact listSwap_getD_other ip i k j hji.symm hjk.symm
        have hval' : ∀ j, j < n → (listSwap ip i k).getD j 0 < n := by
          intro j hj
          by_cases hji : j = i
          · subst hji
            rw [hgleft]
            exact hval k hk_lt_n
          · by_cases hjk : j = k
            · subst hjk
              rw [hgright]
              exact hipi_lt
            · rw [hgother j hji hjk]
              exact hval j hj
        have hgetσ : ∀ j, j < n → (listSwap ip i k).getD j 0
            = ip.getD (if j = i then k else if j = k then i else j) 0 := by
          intro j hj
          by_cases hji : j = i
          · subst hji
            rw [if_pos rfl]
            exact hgleft
          · rw [if_neg hji]
            by_cases hjk : j = k
            · subst hjk
              rw [if_pos rfl]
              exact hgright
            · rw [if_neg hjk]
              exact hgother j hji hjk
        have hinj' : ∀ j1 j2, j1 < n → j2 < n →
            (listSwap ip i k).getD j1 0 = (listSwap ip i k).getD j2 0 → j1 = j2 := by
          intro j1 j2 hj1 hj2 heq
          rw [hgetσ j1 hj1, hgetσ j2 hj2] at heq
          have hσ1 : (if j1 = i then k else if j1 = k then i else j1) < n := by
            split_ifs <;> omega
          have hσ2 : (if j2 = i then k else if j2 = k then i else j2) < n := by
            split_ifs <;> omega
          have hσeq := hinj _ _ hσ1 hσ2 heq
          by_cases e1 : j1 = i
          · by_cases e2 : j2 = i
            · omega
            · by_cases f2 : j2 = k
              · rw [if_pos e1, if_neg e2, if_pos f2] at hσeq
                omega
              · rw [if_pos e1, if_neg e2, if_neg f2] at hσeq
                omega
          · by_cases f1 : j1 = k
            · by_cases e2 : j2 = i
              · rw [if_neg e1, if_pos f1, if_pos e2] at hσeq
                omega
              · by_cases f2 : j2 = k
                · omega
                · rw [if_neg e1, if_pos f1, if_neg e2, if_neg f2] at hσeq
                  omega
            · by_cases e2 : j2 = i
              · rw [if_neg e1, if_neg f1, if_pos e2] at hσeq
                omega
              · by_cases f2 : j2 = k
                · rw [if_neg e1, if_neg f1, if_neg e2, if_pos f2] at hσeq
                  omega
                · rw [if_neg e1, if_neg f1, if_neg e2, if_neg f2] at hσeq
                  omega
        have hpre' : ∀ j, j < i → (listSwap ip i k).getD j 0 = perm.getD j 0 := by
          intro j hj
          rw [hgother j (by omega) (by omega)]
          exact hpre j hj
        have hkW : k ∈ (Finset.range n).filter
            (fun j => ip.getD j 0 ≠ perm.getD j 0) := by
          rw [Finset.mem_filter]
          refine ⟨Finset.mem_range.mpr hk_lt_n, ?_⟩
          intro h
          have h2 : ip.getD k 0 = ip.getD i 0 := by rw [h, hpk]
          have := hinj k i hk_lt_n hin h2
          omega
        have hWsub : (Finset.range n).filter
              (fun j => (listSwap ip i k).getD j 0 ≠ perm.getD j 0)
            ⊆ ((Finset.range n).filter
              (fun j => ip.getD j 0 ≠ perm.getD j 0)).erase k := by
          intro j hj
          rw [Finset.mem_filter] at hj
          obtain ⟨hjr, hjne⟩ := hj
          rw [Finset.mem_erase]
          constructor
          · intro hjk
            subst hjk
            apply hjne
            rw [hgright, hpk]
          · rw [Finset.mem_filter]
            refine ⟨hjr, ?_⟩
            by_cases hji : j = i
            · subst hji
              exact hne
            · by_cases hjk : j = k
              · subst hjk
                exact absurd (by rw [hgright, hpk]) hjne
              · rw [← hgother j hji hjk]
                exact hjne
        have hcard : ((Finset.range n).filter
              (fun j => (listSwap ip i k).getD j 0 ≠ perm.getD j 0)).card
            < ((Finset.range n).filter
              (fun j => ip.getD j 0 ≠ perm.getD j 0)).card := by
          calc ((Finset.range n).filter
                (fun j => (listSwap ip i k).getD j 0 ≠ perm.getD j 0)).card
              ≤ (((Finset.range n).filter
                (fun j => ip.getD j 0 ≠ perm.getD j 0)).erase k).card :=
              Finset.card_le_card hWsub
            _ < _ := Finset.card_erase_lt_of_mem hkW
        exact ih (listSwap ip i k) i (gates ++ [Gate.swap (n + i) (n + k)])
          hlen' hval' hinj' hpre' hile (by omega)
      · rw [if_neg hne]
        push_neg at hne
        have hpre' : ∀ j, j < i + 1 → ip.getD j 0 = perm.getD j 0 := by
          intro j hj
          rcases Nat.lt_or_ge j i with h | h
          · exact hpre j h
          · have hji : j = i := by omega
            subst hji
            exact hne
        exact ih ip (i + 1) gates hlen hval hinj hpre' (by omega) (by omega)
    · have hieq : i = n := by omega
      rw [simonSwapLoop, if_neg hin]
      refine ⟨gates, ?_⟩
      have hip : ip = perm := by
        apply List.ext_getElem (by omega)
        intro m h1 h2
        have := hpre m (by omega)
        rwa [List.getD_eq_getElem _ _ h1, List.getD_eq_getElem _ _ h2] at this
      rw [hip, hieq]

/-- C8: for every `n` and every permutation of `{0,...,n-1}` drawn in
`SimonProblem.oracle`, the while-loop realising it by swap gates terminates
(fuel `2n+1` suffices), with the loop index `i` reaching `n` and
`initial_position` equal to the permutation on exit. -/
theorem simon_oracle_loop_terminates (n : Nat) (perm : List Nat)
    (hperm : perm.Perm (List.range n)) :
    ∃ gs, simonSwapLoop n perm (2 * n + 1) (List.range n) 0 []
      = some (gs, perm, n) := by
  apply simonSwapLoop_reaches n perm hperm (2 * n + 1) (List.range n) 0 []
  · simp
  · intro j hj
    rw [List.getD_eq_getElem _ _ (by simpa using hj), List.getElem_range]
    exact hj
  · intro j1 j2 h1 h2 heq
    rwa [List.getD_eq_getElem _ _ (by simpa using h1), List.getElem_range,
      List.getD_eq_getElem _ _ (by simpa using h2), List.getElem_range] at heq
  · intro j hj
    exact absurd hj (Nat.not_lt_zero j)
  · omega
  · have hWle : ((Finset.range n).filter
        (fun j => (List.range n).getD j 0 ≠ perm.getD j 0)).card ≤ n := by
      calc ((Finset.range n).filter
            (fun j => (List.range n).getD j 0 ≠ perm.getD j 0)).card
          ≤ (Finset.range n).card := Finset.card_filter_le _ _
        _ = n := Finset.card_range n
    omega

/-- Witness for C8 at n = 3 with the permutation [2, 0, 1]. -/
theorem simon_oracle_loop_terminates_witness :
    ([2, 0, 1] : List Nat).Perm (List.range 3)
    ∧ ∃ gs, simonSwapLoop 3 [2, 0, 1] (2 * 3 + 1) (List.range 3) 0 []
        = some (gs, [2, 0, 1], 3) :=
  ⟨by decide, simon_oracle_loop_terminates 3 [2, 0, 1] (by decide)⟩

theorem bdotz_foldl (b z : List Char) :
    ∀ (n acc : Nat),
      (List.range n).foldl
        (fun accum i => accum + charToInt (b.getD i ' ') * charToInt (z.getD i ' ')) acc
      = acc + ∑ i ∈ Finset.range n,
          charToInt (b.getD i ' ') * charToInt (z.getD i ' ') := by
  intro n
  induction n with
  | zero =>
    intro acc
    simp
  | succ n ih =>
    intro acc
    rw [List.range_succ, List.foldl_append, ih, Finset.sum_range_succ]
    simp only [List.foldl_cons, List.foldl_nil]
    omega

/-- C10: `SimonProblem.bdotz` returns the inner product of the two bit
strings modulo 2 — the sum over `i` of `b[i] * z[i]`, taken mod 2 — which
is always 0 or 1. -/
theorem bdotz_eq_inner_product_mod_two (b z : List Char) (_hlen : b.length = z.length) :
    bdotz b z = (∑ i ∈ Finset.range b.length,
        charToInt (b.getD i ' ') * charToInt (z.getD i ' ')) % 2
    ∧ (bdotz b z = 0 ∨ bdotz b z = 1) := by
  constructor
  · rw [bdotz, bdotz_foldl]
    omega
  · rw [bdotz]
    exact Nat.mod_two_eq_zero_or_one _

/-- Witness for C10 at b = "110", z = "011". -/
theorem bdotz_eq_inner_product_mod_two_witness :
    (['1', '1', '0'] : List Char).length = (['0', '1', '1'] : List Char).length
    ∧ (bdotz ['1', '1', '0'] ['0', '1', '1']
        = (∑ i ∈ Finset.range (['1', '1', '0'] : List Char).length,
            charToInt ((['1', '1', '0'] : List Char).getD i ' ')
              * charToInt ((['0', '1', '1'] : List Char).getD i ' ')) % 2
      ∧ (bdotz ['1', '1', '0'] ['0', '1', '1'] = 0
          ∨ bdotz ['1', '1', '0'] ['0', '1', '1'] = 1)) :=
  ⟨rfl, bdotz_eq_inner_product_mod_two ['1', '1', '0'] ['0', '1', '1'] rfl⟩

/-- Counterexample to C4: two runs of `DeutschJozsa.oracle` on equal
instances (type "constant", one input bit) with equal arguments but
different draws of `np.random.randint(2)` — both reachable — produce
different gate sequences. -/
theorem DJ_oracle_runs_differ :
    DJ_oracle ⟨"constant", 1⟩ 1 1 ≠ DJ_oracle ⟨"constant", 1⟩ 0 1 := by
  decide

/-- C4 (amended): circuit construction reads no global state other than
numpy's random number generator: two runs of `oracle()` on equal instances
with equal arguments and equal random draws produce identical gate
sequences (`DeutschJozsa.oracle` and `SimonProblem.oracle`). -/
theorem oracle_deterministic_given_draws
    (dj dj' : DeutschJozsa) (o o' b b' : Nat)
    (sp sp' : SimonProblem) (p p' : List Nat) (f f' : List Bool)
    (hdj : dj = dj') (ho : o = o') (hb : b = b')
    (hsp : sp = sp') (hp : p = p') (hf : f = f') :
    DJ_oracle dj o b = DJ_oracle dj' o' b'
    ∧ Simon_oracle sp p f = Simon_oracle sp' p' f' := by
  subst hdj
  subst ho
  subst hb
  subst hsp
  subst hp
  subst hf
  exact ⟨rfl, rfl⟩

/-- Witness for the amended C4 at concrete instances and draws. -/
theorem oracle_deterministic_given_draws_witness :
    (⟨"balanced", 2⟩ : DeutschJozsa) = ⟨"balanced", 2⟩
    ∧ (DJ_oracle ⟨"balanced", 2⟩ 0 2 = DJ_oracle ⟨"balanced", 2⟩ 0 2
      ∧ Simon_oracle (Simon_init ['1', '0']) [1, 0] [false, true]
          = Simon_oracle (Simon_init ['1', '0']) [1, 0] [false, true]) :=
  ⟨rfl, oracle_deterministic_given_draws
    ⟨"balanced", 2⟩ ⟨"balanced", 2⟩ 0 0 2 2
    (Simon_init ['1', '0']) (Simon_init ['1', '0']) [1, 0] [1, 0]
    [false, true] [false, true] rfl rfl rfl rfl rfl rfl⟩

/-- C1 fails on the code: exactly two public methods read a `self`
attribute their class never assigns — `BernsteinVazirani.run_quantum_hardware`
reads `self.num_bits` (the class stores `self.n`) and
`QuantumPhaseEstimation.run_quantum_hardware` reads `self.n` (the class
stores `self.n_counting_qubits`) — so both raise an `AttributeError`
originating in this repository's own code, beyond the Deutsch-Jozsa
oracle-type assertion. -/
theorem attribute_resolution_failures :
    (selfAttributeReads.filter (fun e => ! methodAttributesResolve e)).map
        (fun e => (e.1, e.2.1))
      = [("BernsteinVazirani", "run_quantum_hardware"),
         ("QuantumPhaseEstimation", "run_quantum_hardware")] := by
  decide
